import Mathlib

/-!
Shallow embedding of `src/lru_cache.py` (the `lru_cache_to_file` decorator)
from the barcode-scout repository, together with proofs about the claims of
its specification.

The cache directory is modelled as an association list of cache keys
(file names) to entries, kept in directory-listing order; an entry records
the stored bytes (`data = some r` when the bytes decode to `r`,
`data = none` when the bytes are corrupt and `pickle.load` would fail) and
the file's access time used by the LRU logic.
-/

namespace LruCacheToFile

/-- A cache file: `data` is the decodable content (`none` models bytes that
fail to unpickle), `atime` the access time used by `os.path.getatime`. -/
structure Entry (R : Type) where
  data : Option R
  atime : Nat
deriving DecidableEq

/-- The cache directory: association list in directory-listing order. -/
abbrev Store (K R : Type) := List (K × Entry R)

variable {K E R : Type}

/-- Models `os.path.exists` plus reading the file named `key`: the first
entry carrying that key, if any. -/
def findEntry [DecidableEq K] (key : K) : Store K R → Option (Entry R)
  | [] => none
  | q :: rest => if q.1 = key then some q.2 else findEntry key rest

/-- Models `os.utime(cache_file, None)`: set the access time of `key` to
`now` (source line 64). -/
def touch [DecidableEq K] (key : K) (now : Nat) : Store K R → Store K R
  | [] => []
  | q :: rest =>
    if q.1 = key then (q.1, ⟨q.2.data, now⟩) :: rest
    else q :: touch key now rest

/-- Step 6 of the wrapper, `open(cache_file, "wb")` plus `pickle.dump`
(source lines 86-87): overwrite the entry in place, or create it (a new
file appears at the end of the listing). -/
def writeEntry [DecidableEq K] (key : K) (r : R) (now : Nat) : Store K R → Store K R
  | [] => [(key, ⟨some r, now⟩)]
  | q :: rest =>
    if q.1 = key then (key, ⟨some r, now⟩) :: rest
    else q :: writeEntry key r now rest

/-- Models `os.remove`: delete the file named `key`. -/
def removeKey [DecidableEq K] (key : K) (s : Store K R) : Store K R :=
  s.filter fun q => !(decide (q.1 = key))

/-- The fold performed by Python's `min(files, key=os.path.getatime)`
(source line 109): keep the current best unless a strictly smaller access
time appears, so the first file with the minimal access time in listing
order wins. -/
def minByAtimeAux (best : K × Entry R) : List (K × Entry R) → K × Entry R
  | [] => best
  | q :: rest => minByAtimeAux (if q.2.atime < best.2.atime then q else best) rest

/-- Models `min(files, key=os.path.getatime)` on the directory listing. -/
def minByAtime : Store K R → Option (K × Entry R)
  | [] => none
  | q :: rest => some (minByAtimeAux q rest)

/-- Step 7 of the wrapper: the `while True` eviction loop (source lines
96-114). While the listing has more than `max_size` files, remove the least
recently accessed file. `rf k = true` models `os.remove(k)` raising
`OSError`; since line 112 sits outside any `try` block the exception
escapes, which the `error` constructor records (carrying the store state at
the moment the exception propagates). -/
def evictLoop [DecidableEq K] (maxSize : Nat) (rf : K → Bool) (s : Store K R) :
    Except (Store K R) (Store K R) :=
  if s.length > maxSize then
    match hm : minByAtime s with
    | some p =>
      if rf p.1 then .error s
      else evictLoop maxSize rf (removeKey p.1 s)
    | none => .ok s
  else .ok s
termination_by s.length
decreasing_by
  have hmem : p ∈ s := by
    cases s with
    | nil => simp [minByAtime] at hm
    | cons q rest =>
      rw [minByAtime, Option.some_inj] at hm
      have haux : ∀ (l : List (K × Entry R)) (best : K × Entry R),
          minByAtimeAux best l = best ∨ minByAtimeAux best l ∈ l := by
        intro l
        induction l with
        | nil => intro best; exact Or.inl rfl
        | cons a tail ih =>
          intro best
          rw [minByAtimeAux]
          rcases ih (if a.2.atime < best.2.atime then a else best) with h1 | h1
          · rw [h1]
            by_cases hc : a.2.atime < best.2.atime
            · rw [if_pos hc]; exact Or.inr (List.mem_cons_self a tail)
            · rw [if_neg hc]; exact Or.inl rfl
          · exact Or.inr (List.mem_cons_of_mem a h1)
      rcases haux rest q with h1 | h1
      · rw [← hm, h1]; exact List.mem_cons_self q rest
      · rw [← hm]; exact List.mem_cons_of_mem q h1
  show (List.filter _ s).length < s.length
  refine List.length_filter_lt_length_iff_exists.mpr ⟨p, hmem, ?_⟩
  simp

/-- Helper projecting the store out of a finished eviction pass, whether
the pass returned normally or an `OSError` escaped. -/
def exceptStore : Except (Store K R) (Store K R) → Store K R
  | .ok s => s
  | .error s => s

/-- Environment of one wrapped call: which fallible file-system operations
succeed. `writeOk` is step 6's `open`/`dump` (its failure is caught at
source lines 89-91), `rmCorruptOk` is step 4's `os.remove` of a corrupt
file (caught at lines 72-76), and `evictRmFails k` makes step 7's
`os.remove(k)` (line 112, not guarded by any `try`) raise `OSError`. -/
structure World (K : Type) where
  writeOk : Bool
  rmCorruptOk : Bool
  evictRmFails : K → Bool

/-- Benign environment: every file-system operation succeeds. -/
def wAll (K : Type) : World K := ⟨true, true, fun _ => false⟩

/-- Outcome of one wrapped call as the caller sees it: a returned value, an
exception of the wrapped function propagating, or an `OSError` escaping the
eviction loop. -/
inductive WrapOut (E R : Type) where
  | ok : R → WrapOut E R
  | opError : E → WrapOut E R
  | osError : WrapOut E R
deriving DecidableEq

/-- Result of one wrapped call: the caller-visible outcome, the cache
directory afterwards, and how many times the wrapped function was
invoked. -/
structure WrapResult (K E R : Type) where
  out : WrapOut E R
  store : Store K R
  opCalls : Nat
deriving DecidableEq

/-- Outcome of invoking the wrapped function directly and passing its
result (or its exception) straight to the caller. -/
def directResult : Except E R → WrapOut E R
  | .ok r => .ok r
  | .error e => .opError e

/-- Steps 5-7 of the wrapper (source lines 78-116): call the wrapped
function; on success write the result to the cache file (failures caught
and ignored) and run the eviction loop, then return the result. `opRes` is
the outcome `func(*args, **kwargs)` would produce for this call. -/
def missPath [DecidableEq K] (maxSize now : Nat) (w : World K) (opRes : Except E R)
    (key : K) (s : Store K R) : WrapResult K E R :=
  match opRes with
  | .error e => ⟨.opError e, s, 1⟩
  | .ok r =>
    match evictLoop maxSize w.evictRmFails (if w.writeOk then writeEntry key r now s else s) with
    | .error s2 => ⟨.osError, s2, 1⟩
    | .ok s2 => ⟨.ok r, s2, 1⟩

/-- The `wrapper` closure of `lru_cache_to_file` (source lines 40-116).
`fp = none` models step 3 failing with `PicklingError`/`TypeError` (the
arguments cannot be pickled), in which case the function is called
directly; `fp = some key` is the computed cache file name. On a hit the
file's access time is refreshed and its decoded content returned; if the
content fails to unpickle the file is removed (best effort) and control
falls through to the miss path. -/
def wrapper [DecidableEq K] (maxSize now : Nat) (w : World K) (opRes : Except E R)
    (fp : Option K) (s : Store K R) : WrapResult K E R :=
  match fp with
  | none => ⟨directResult opRes, s, 1⟩
  | some key =>
    match findEntry key s with
    | some entry =>
      match entry.data with
      | some r => ⟨.ok r, touch key now s, 0⟩
      | none =>
        missPath maxSize now w opRes key
          (if w.rmCorruptOk then removeKey key (touch key now s) else touch key now s)
    | none => missPath maxSize now w opRes key s

/-- Closed set of picklable argument values (spec section 9: numbers,
strings, booleans, ordered sequences — sequences built from pairs here). -/
inductive Value where
  | int : Int → Value
  | str : String → Value
  | boolean : Bool → Value
  | pair : Value → Value → Value
deriving DecidableEq

/-- Comparison used to sort keyword arguments: Python's
`sorted(kwargs.items())` compares the `(name, value)` tuples, which on the
distinct keys of a `dict` reduces to comparing the name strings. -/
def kwLE (a b : String × Value) : Prop := a.1 ≤ b.1

instance : DecidableRel kwLE := fun a b => inferInstanceAs (Decidable (a.1 ≤ b.1))

instance : IsTotal (String × Value) kwLE := ⟨fun a b => le_total a.1 b.1⟩

instance : IsTrans (String × Value) kwLE := ⟨fun _ _ _ h1 h2 => le_trans h1 h2⟩

/-- Models `sorted(kwargs.items())` (source line 46). -/
def sortKwargs (kwargs : List (String × Value)) : List (String × Value) :=
  List.insertionSort kwLE kwargs

/-- The cache file name. The source hashes the pickled canonical tuple with
SHA-256 and uses the hex digest; the model keeps the canonical tuple itself
as the key, an injective stand-in for the digest (equal tuples give equal
digests, which is the only direction the claims rely on). -/
abbrev CacheKey := List Value × List (String × Value)

/-- Steps 2-3 of the wrapper (source lines 44-52): the stable
representation `(args, sorted(kwargs.items()))` whose hash names the cache
file. The wrapped function itself is not part of the input. -/
def fingerprint (args : List Value) (kwargs : List (String × Value)) : CacheKey :=
  (args, sortKwargs kwargs)

/-- A file-system operation performed while storing a result. -/
inductive FsOp (K R : Type) where
  | create : K → FsOp K R
  | writeData : K → R → FsOp K R
  | rename : K → K → FsOp K R
deriving DecidableEq

/-- Whether an operation is an atomic rename/replace. -/
def FsOp.isRen : FsOp K R → Bool
  | .rename _ _ => true
  | _ => false

/-- The sequence of file-system operations step 6 performs (source lines
86-87): `open(cache_file, "wb")` creates/truncates the final cache file in
place, then `pickle.dump` writes the payload into it. No temporary file
and no rename is involved (the FIXME at line 83 records this). -/
def putTrace (key : K) (r : R) : List (FsOp K R) :=
  [.create key, .writeData key r]

/-- Models `open(path, "wb")`: the file exists from this moment on with
empty (hence undecodable) content. -/
def createFile [DecidableEq K] (key : K) (now : Nat) : Store K R → Store K R
  | [] => [(key, ⟨none, now⟩)]
  | q :: rest =>
    if q.1 = key then (key, ⟨none, now⟩) :: rest
    else q :: createFile key now rest

/-- Models completing the data write into an existing file. -/
def fillFile [DecidableEq K] (key : K) (r : R) : Store K R → Store K R
  | [] => []
  | q :: rest =>
    if q.1 = key then (key, ⟨some r, q.2.atime⟩) :: rest
    else q :: fillFile key r rest

/-- Effect of one file-system operation on the directory. -/
def applyOp [DecidableEq K] (now : Nat) (s : Store K R) : FsOp K R → Store K R
  | .create k => createFile k now s
  | .writeData k r => fillFile k r s
  | .rename a b => (removeKey b s).map fun q => if q.1 = a then (b, q.2) else q

/-- Effect of a sequence of file-system operations on the directory. -/
def applyTrace [DecidableEq K] (now : Nat) (s : Store K R) (tr : List (FsOp K R)) :
    Store K R :=
  tr.foldl (applyOp now) s

theorem minByAtimeAux_mem (l : List (K × Entry R)) (best : K × Entry R) :
    minByAtimeAux best l = best ∨ minByAtimeAux best l ∈ l := by
  induction l generalizing best with
  | nil => exact Or.inl rfl
  | cons q rest ih =>
    rw [minByAtimeAux]
    rcases ih (if q.2.atime < best.2.atime then q else best) with h1 | h1
    · rw [h1]
      by_cases hc : q.2.atime < best.2.atime
      · rw [if_pos hc]; exact Or.inr (List.mem_cons_self q rest)
      · rw [if_neg hc]; exact Or.inl rfl
    · exact Or.inr (List.mem_cons_of_mem q h1)

theorem minByAtime_mem {s : Store K R} {p : K × Entry R}
    (h : minByAtime s = some p) : p ∈ s := by
  cases s with
  | nil => simp [minByAtime] at h
  | cons q rest =>
    rw [minByAtime, Option.some_inj] at h
    rcases minByAtimeAux_mem rest q with h1 | h1
    · rw [← h, h1]; exact List.mem_cons_self q rest
    · rw [← h]; exact List.mem_cons_of_mem q h1

theorem minByAtimeAux_le (l : List (K × Entry R)) (best : K × Entry R) :
    (minByAtimeAux best l).2.atime ≤ best.2.atime ∧
      ∀ q ∈ l, (minByAtimeAux best l).2.atime ≤ q.2.atime := by
  induction l generalizing best with
  | nil => exact ⟨le_refl _, by intro q hq; simp at hq⟩
  | cons q rest ih =>
    by_cases h : q.2.atime < best.2.atime
    · rw [minByAtimeAux, if_pos h]
      refine ⟨le_trans (ih q).1 (le_of_lt h), ?_⟩
      intro q1 hq1
      rcases List.mem_cons.mp hq1 with h1 | h1
      · rw [h1]; exact (ih q).1
      · exact (ih q).2 q1 h1
    · rw [minByAtimeAux, if_neg h]
      refine ⟨(ih best).1, ?_⟩
      intro q1 hq1
      rcases List.mem_cons.mp hq1 with h1 | h1
      · rw [h1]; exact le_trans (ih best).1 (le_of_not_lt h)
      · exact (ih best).2 q1 h1

theorem minByAtime_le {s : Store K R} {p : K × Entry R}
    (h : minByAtime s = some p) : ∀ q ∈ s, p.2.atime ≤ q.2.atime := by
  cases s with
  | nil => simp [minByAtime] at h
  | cons q rest =>
    rw [minByAtime, Option.some_inj] at h
    intro q1 hq1
    rcases List.mem_cons.mp hq1 with h1 | h1
    · rw [← h, h1]; exact (minByAtimeAux_le rest q).1
    · rw [← h]; exact (minByAtimeAux_le rest q).2 q1 h1

theorem minByAtime_eq_none {s : Store K R} (h : minByAtime s = none) : s = [] := by
  cases s with
  | nil => rfl
  | cons q rest => simp [minByAtime] at h

theorem removeKey_length_lt [DecidableEq K] {s : Store K R} {p : K × Entry R}
    (h : p ∈ s) : (removeKey p.1 s).length < s.length := by
  show (List.filter _ s).length < s.length
  refine List.length_filter_lt_length_iff_exists.mpr ⟨p, h, ?_⟩
  simp

theorem findEntry_removeKey [DecidableEq K] (k k1 : K) (s : Store K R) :
    findEntry k (removeKey k1 s) = if k = k1 then none else findEntry k s := by
  induction s with
  | nil => by_cases h : k = k1 <;> simp [removeKey, findEntry, h]
  | cons q rest ih =>
    rw [removeKey, List.filter_cons]
    by_cases hq : q.1 = k1
    · rw [if_neg (by simp [hq])]
      rw [show List.filter _ rest = removeKey k1 rest from rfl, ih]
      by_cases hk : k = k1
      · simp [hk]
      · rw [if_neg hk, if_neg hk, findEntry, if_neg (by rw [hq]; exact fun h => hk h.symm)]
    · rw [if_pos (by simp [hq])]
      rw [findEntry, show List.filter _ rest = removeKey k1 rest from rfl, ih, findEntry]
      by_cases hqk : q.1 = k
      · have hk : ¬ k = k1 := fun h => hq (hqk.trans h)
        simp [hqk, hk]
      · simp [hqk]

theorem findEntry_writeEntry_self [DecidableEq K] (key : K) (r : R) (now : Nat)
    (s : Store K R) :
    findEntry key (writeEntry key r now s) = some ⟨some r, now⟩ := by
  induction s with
  | nil => simp [writeEntry, findEntry]
  | cons q rest ih =>
    by_cases hq : q.1 = key
    · rw [writeEntry, if_pos hq, findEntry, if_pos rfl]
    · rw [writeEntry, if_neg hq, findEntry, if_neg hq, ih]

theorem writeEntry_length_of_absent [DecidableEq K] {key : K} {s : Store K R}
    (h : findEntry key s = none) (r : R) (now : Nat) :
    (writeEntry key r now s).length = s.length + 1 := by
  induction s with
  | nil => rfl
  | cons q rest ih =>
    rw [findEntry] at h
    by_cases hq : q.1 = key
    · rw [if_pos hq] at h; exact absurd h (by simp)
    · rw [if_neg hq] at h
      rw [writeEntry, if_neg hq, List.length_cons, List.length_cons, ih h]

theorem evictLoop_of_le [DecidableEq K] (maxSize : Nat) (rf : K → Bool) (s : Store K R)
    (h : s.length ≤ maxSize) : evictLoop maxSize rf s = .ok s := by
  rw [evictLoop]
  simp [Nat.not_lt.mpr h]

theorem evictLoop_ok_length [DecidableEq K] (maxSize : Nat) (rf : K → Bool) :
    ∀ (n : Nat) (s s1 : Store K R), s.length ≤ n →
      evictLoop maxSize rf s = .ok s1 → s1.length ≤ maxSize := by
  intro n
  induction n with
  | zero =>
    intro s s1 hlen h
    rw [evictLoop, if_neg (by omega)] at h
    injection h with h
    subst h
    omega
  | succ n ih =>
    intro s s1 hlen h
    rw [evictLoop] at h
    split at h
    · split at h
      next p hm =>
        split at h
        · exact absurd h (by simp)
        · have hlt : (removeKey p.1 s).length < s.length :=
            removeKey_length_lt (minByAtime_mem hm)
          exact ih (removeKey p.1 s) s1 (by omega) h
      next hm =>
        have he : s = [] := minByAtime_eq_none hm
        subst he
        injection h with h
        subst h
        simp
    · next hgt =>
        injection h with h
        subst h
        omega

theorem evictLoop_noFail_ok [DecidableEq K] (maxSize : Nat) :
    ∀ (n : Nat) (s : Store K R), s.length ≤ n →
      ∃ s1, evictLoop maxSize (fun _ => false) s = .ok s1 := by
  intro n
  induction n with
  | zero =>
    intro s hlen
    exact ⟨s, evictLoop_of_le maxSize _ s (by omega)⟩
  | succ n ih =>
    intro s hlen
    by_cases hgt : s.length > maxSize
    · cases hm : minByAtime s with
      | none =>
        have he : s = [] := minByAtime_eq_none hm
        subst he
        simp at hgt
      | some p =>
        have hlt : (removeKey p.1 s).length < s.length :=
          removeKey_length_lt (minByAtime_mem hm)
        obtain ⟨s1, h1⟩ := ih (removeKey p.1 s) (by omega)
        refine ⟨s1, ?_⟩
        rw [evictLoop, if_pos hgt]
        split
        next p2 hm2 =>
          rw [hm] at hm2
          injection hm2 with hm2
          subst hm2
          simpa using h1
        next hm2 =>
          rw [hm] at hm2
          exact absurd hm2 (by simp)
    · exact ⟨s, evictLoop_of_le maxSize _ s (by omega)⟩

theorem evictLoop_findEntry [DecidableEq K] (maxSize : Nat) (rf : K → Bool) (k : K) :
    ∀ (n : Nat) (s s1 : Store K R), s.length ≤ n →
      evictLoop maxSize rf s = .ok s1 →
      findEntry k s1 = none ∨ findEntry k s1 = findEntry k s := by
  intro n
  induction n with
  | zero =>
    intro s s1 hlen h
    rw [evictLoop, if_neg (by omega)] at h
    injection h with h
    subst h
    exact Or.inr rfl
  | succ n ih =>
    intro s s1 hlen h
    rw [evictLoop] at h
    split at h
    · split at h
      next p hm =>
        split at h
        · exact absurd h (by simp)
        · have hlt : (removeKey p.1 s).length < s.length :=
            removeKey_length_lt (minByAtime_mem hm)
          rcases ih (removeKey p.1 s) s1 (by omega) h with h1 | h1
          · exact Or.inl h1
          · rw [findEntry_removeKey] at h1
            by_cases hk : k = p.1
            · rw [if_pos hk] at h1; exact Or.inl h1
            · rw [if_neg hk] at h1; exact Or.inr h1
      next hm =>
        injection h with h
        subst h
        exact Or.inr rfl
    · injection h with h
      subst h
      exact Or.inr rfl

theorem evictLoop_cons_step [DecidableEq K] {maxSize : Nat} {rf : K → Bool}
    {s : Store K R} {p : K × Entry R} (hgt : s.length > maxSize)
    (hm : minByAtime s = some p) (hrf : rf p.1 = false) :
    evictLoop maxSize rf s = evictLoop maxSize rf (removeKey p.1 s) := by
  rw [evictLoop, if_pos hgt]
  split
  next p2 hm2 =>
    rw [hm] at hm2
    injection hm2 with hm2
    subst hm2
    rw [if_neg (by simp [hrf])]
  next hm2 =>
    rw [hm] at hm2
    exact absurd hm2 (by simp)

theorem evictLoop_error_step [DecidableEq K] {maxSize : Nat} {rf : K → Bool}
    {s : Store K R} {p : K × Entry R} (hgt : s.length > maxSize)
    (hm : minByAtime s = some p) (hrf : rf p.1 = true) :
    evictLoop maxSize rf s = .error s := by
  rw [evictLoop, if_pos hgt]
  split
  next p2 hm2 =>
    rw [hm] at hm2
    injection hm2 with hm2
    subst hm2
    rw [if_pos hrf]
  next hm2 =>
    rw [hm] at hm2
    exact absurd hm2 (by simp)

theorem wrapper_miss [DecidableEq K] (maxSize now : Nat) (w : World K)
    (opRes : Except E R) (key : K) (s : Store K R)
    (habs : findEntry key s = none) :
    wrapper maxSize now w opRes (some key) s = missPath maxSize now w opRes key s := by
  show (match findEntry key s with
    | some entry =>
      match entry.data with
      | some r => (⟨.ok r, touch key now s, 0⟩ : WrapResult K E R)
      | none =>
        missPath maxSize now w opRes key
          (if w.rmCorruptOk then removeKey key (touch key now s) else touch key now s)
    | none => missPath maxSize now w opRes key s) = missPath maxSize now w opRes key s
  rw [habs]

theorem wrapper_hit [DecidableEq K] (maxSize now : Nat) (w : World K)
    (opRes : Except E R) (key : K) (s : Store K R) (e : Entry R) (r : R)
    (hf : findEntry key s = some e) (hd : e.data = some r) :
    wrapper maxSize now w opRes (some key) s = ⟨.ok r, touch key now s, 0⟩ := by
  show (match findEntry key s with
    | some entry =>
      match entry.data with
      | some r => (⟨.ok r, touch key now s, 0⟩ : WrapResult K E R)
      | none =>
        missPath maxSize now w opRes key
          (if w.rmCorruptOk then removeKey key (touch key now s) else touch key now s)
    | none => missPath maxSize now w opRes key s) = ⟨.ok r, touch key now s, 0⟩
  rw [hf]
  show (match e.data with
    | some r => (⟨.ok r, touch key now s, 0⟩ : WrapResult K E R)
    | none =>
      missPath maxSize now w opRes key
        (if w.rmCorruptOk then removeKey key (touch key now s) else touch key now s)) =
      ⟨.ok r, touch key now s, 0⟩
  rw [hd]

theorem wrapper_corrupt [DecidableEq K] (maxSize now : Nat) (w : World K)
    (opRes : Except E R) (key : K) (s : Store K R) (e : Entry R)
    (hf : findEntry key s = some e) (hd : e.data = none) :
    wrapper maxSize now w opRes (some key) s =
      missPath maxSize now w opRes key
        (if w.rmCorruptOk then removeKey key (touch key now s) else touch key now s) := by
  show (match findEntry key s with
    | some entry =>
      match entry.data with
      | some r => (⟨.ok r, touch key now s, 0⟩ : WrapResult K E R)
      | none =>
        missPath maxSize now w opRes key
          (if w.rmCorruptOk then removeKey key (touch key now s) else touch key now s)
    | none => missPath maxSize now w opRes key s) =
      missPath maxSize now w opRes key
        (if w.rmCorruptOk then removeKey key (touch key now s) else touch key now s)
  rw [hf]
  show (match e.data with
    | some r => (⟨.ok r, touch key now s, 0⟩ : WrapResult K E R)
    | none =>
      missPath maxSize now w opRes key
        (if w.rmCorruptOk then removeKey key (touch key now s) else touch key now s)) =
      missPath maxSize now w opRes key
        (if w.rmCorruptOk then removeKey key (touch key now s) else touch key now s)
  rw [hd]

theorem missPath_err [DecidableEq K] (maxSize now : Nat) (w : World K) (err : E)
    (key : K) (s : Store K R) :
    missPath maxSize now w (Except.error err : Except E R) key s =
      ⟨.opError err, s, 1⟩ := rfl

theorem missPath_wAll_ok [DecidableEq K] (maxSize now : Nat) (r : R) (key : K)
    (s : Store K R) (hcap : (writeEntry key r now s).length ≤ maxSize) :
    missPath maxSize now (wAll K) (Except.ok r : Except E R) key s =
      ⟨.ok r, writeEntry key r now s, 1⟩ := by
  show (match evictLoop maxSize (fun _ => false) (writeEntry key r now s) with
    | Except.error s2 => (⟨.osError, s2, 1⟩ : WrapResult K E R)
    | Except.ok s2 => ⟨.ok r, s2, 1⟩) = ⟨.ok r, writeEntry key r now s, 1⟩
  rw [evictLoop_of_le _ _ _ hcap]

theorem sortKwargs_perm_eq (kw1 kw2 : List (String × Value)) (hperm : kw1.Perm kw2)
    (hnd : kw1.Pairwise fun a b => a.1 ≠ b.1) : sortKwargs kw1 = sortKwargs kw2 := by
  have hs1 : List.Sorted kwLE (sortKwargs kw1) := List.sorted_insertionSort kwLE kw1
  have hs2 : List.Sorted kwLE (sortKwargs kw2) := List.sorted_insertionSort kwLE kw2
  have hp1 : (sortKwargs kw1).Perm kw1 := List.perm_insertionSort kwLE kw1
  have hp2 : (sortKwargs kw2).Perm kw2 := List.perm_insertionSort kwLE kw2
  have hp : (sortKwargs kw1).Perm (sortKwargs kw2) := hp1.trans (hperm.trans hp2.symm)
  have hnd1 : (sortKwargs kw1).Pairwise (fun a b => a.1 ≠ b.1) :=
    (hp1.pairwise_iff fun h => Ne.symm h).mpr hnd
  have hnd2 : (sortKwargs kw2).Pairwise (fun a b => a.1 ≠ b.1) :=
    (hp.pairwise_iff fun h => Ne.symm h).mp hnd1
  have hstrict1 : List.Pairwise (fun a b : String × Value => a.1 < b.1) (sortKwargs kw1) :=
    (hs1.and hnd1).imp fun h => lt_of_le_of_ne h.1 h.2
  have hstrict2 : List.Pairwise (fun a b : String × Value => a.1 < b.1) (sortKwargs kw2) :=
    (hs2.and hnd2).imp fun h => lt_of_le_of_ne h.1 h.2
  exact @List.eq_of_perm_of_sorted (String × Value) (fun a b => a.1 < b.1)
    ⟨fun a b h h1 => absurd h1 (lt_asymm h)⟩ _ _ hp hstrict1 hstrict2

/-- C1: after a `put(k, v)` completes — the wrapper stores the freshly
computed result `v` under key `k` (first conjunct: the cache file is
written and the value returned) — a subsequent call whose arguments map to
the same key returns exactly `v` decoded from the store, with the wrapped
function invoked zero times, the store changed only in the entry's access
time. The capacity hypothesis guarantees the fresh entry is not evicted,
matching the claim's "until evicted or overwritten" proviso. -/
theorem claim_C1_put_then_get [DecidableEq K] (maxSize t1 t2 : Nat) (k : K) (v : R)
    (opRes2 : Except E R) (s : Store K R)
    (habs : findEntry k s = none) (hcap : s.length + 1 ≤ maxSize) :
    wrapper maxSize t1 (wAll K) (Except.ok v : Except E R) (some k) s =
      ⟨WrapOut.ok v, writeEntry k v t1 s, 1⟩ ∧
    wrapper maxSize t2 (wAll K) opRes2 (some k) (writeEntry k v t1 s) =
      ⟨WrapOut.ok v, touch k t2 (writeEntry k v t1 s), 0⟩ := by
  have hlen : (writeEntry k v t1 s).length ≤ maxSize := by
    rw [writeEntry_length_of_absent habs]
    omega
  constructor
  · rw [wrapper_miss _ _ _ _ _ _ habs, missPath_wAll_ok _ _ _ _ _ hlen]
  · exact wrapper_hit _ _ _ _ _ _ _ v (findEntry_writeEntry_self k v t1 s) rfl

/-- C1 witness: storing 7 under key 0 in an empty store of capacity 4, then
calling again (the wrapped function would now produce 8) returns the cached
7 without invoking the function. -/
theorem claim_C1_witness :
    wrapper 4 1 (wAll Nat) (Except.ok 7 : Except Unit Nat) (some 0) ([] : Store Nat Nat) =
      ⟨WrapOut.ok 7, writeEntry 0 7 1 [], 1⟩ ∧
    wrapper 4 2 (wAll Nat) (Except.ok 8 : Except Unit Nat) (some 0) (writeEntry 0 7 1 []) =
      ⟨WrapOut.ok 7, touch 0 2 (writeEntry 0 7 1 []), 0⟩ :=
  claim_C1_put_then_get 4 1 2 0 7 (Except.ok 8) [] rfl (by decide)

/-- C2: whenever the eviction pass at the end of a `put` completes (returns
without an escaping exception), the store holds at most `max_size`
entries — for every starting store, hence after any sequence of puts. -/
theorem claim_C2_capacity_after_eviction [DecidableEq K] (maxSize : Nat) (rf : K → Bool)
    (s s1 : Store K R) (h : evictLoop maxSize rf s = .ok s1) : s1.length ≤ maxSize :=
  evictLoop_ok_length maxSize rf s.length s s1 (le_refl _) h

/-- C2 witness: a two-entry store trimmed to capacity 1 by one eviction
pass ends with one entry. -/
theorem claim_C2_witness :
    ([((1:Nat), (⟨some (0:Nat), 1⟩ : Entry Nat))] : Store Nat Nat).length ≤ 1 := by
  refine claim_C2_capacity_after_eviction 1 (fun _ => false)
    [((0:Nat), ⟨some 0, 0⟩), (1, ⟨some 0, 1⟩)] _ ?_
  rw [evictLoop_cons_step (by decide)
      (show minByAtime [((0:Nat), (⟨some (0:Nat), 0⟩ : Entry Nat)), (1, ⟨some 0, 1⟩)] =
        some ((0:Nat), (⟨some (0:Nat), 0⟩ : Entry Nat)) from rfl) rfl,
    evictLoop_of_le _ _ _ (by decide)]
  exact rfl

/-- C3 (code bug): step 6 stores the new result with no temporary file and
no atomic rename — the trace of file-system operations contains no rename,
and after its first operation alone (a crash point, or the instant a
concurrent reader looks) the final cache path already holds a partially
written entry whose bytes do not decode. -/
theorem claim_C3_put_is_not_atomic (k v t : Nat) :
    ((putTrace k v : List (FsOp Nat Nat)).all fun op => !op.isRen) = true ∧
    findEntry k (applyTrace t ([] : Store Nat Nat)
        ((putTrace k v : List (FsOp Nat Nat)).take 1)) = some ⟨none, t⟩ := by
  refine ⟨rfl, ?_⟩
  show findEntry k ([(k, ⟨none, t⟩)] : Store Nat Nat) = some ⟨none, t⟩
  rw [findEntry, if_pos rfl]

/-- C4 (counterexample): two entries with equal access time 3, listed with
the greater key 5 first. The eviction pass removes first-listed key 5 and
keeps key 3; the claim's tie-break (remove the lowest CacheKey, 3) would
instead have kept key 5. -/
theorem claim_C4_counterexample :
    evictLoop 1 (fun _ => false)
        [((5:Nat), (⟨some (0:Nat), 3⟩ : Entry Nat)), (3, ⟨some 0, 3⟩)] =
      .ok [(3, ⟨some 0, 3⟩)] ∧
    evictLoop 1 (fun _ => false)
        [((5:Nat), (⟨some (0:Nat), 3⟩ : Entry Nat)), (3, ⟨some 0, 3⟩)] ≠
      .ok [(5, ⟨some 0, 3⟩)] := by
  have h : evictLoop 1 (fun _ => false)
      [((5:Nat), (⟨some (0:Nat), 3⟩ : Entry Nat)), (3, ⟨some 0, 3⟩)] =
      .ok [(3, ⟨some 0, 3⟩)] := by
    rw [evictLoop_cons_step (by decide)
        (show minByAtime [((5:Nat), (⟨some (0:Nat), 3⟩ : Entry Nat)), (3, ⟨some 0, 3⟩)] =
          some ((5:Nat), (⟨some (0:Nat), 3⟩ : Entry Nat)) from rfl) rfl,
      evictLoop_of_le _ _ _ (by decide)]
    exact rfl
  refine ⟨h, ?_⟩
  rw [h]
  intro hbad
  injection hbad with hbad
  exact absurd hbad (by decide)

/-- C4 (amended): when the store exceeds capacity by one, the eviction pass
removes exactly the entry `min(files, key=getatime)` selects: an entry with
the oldest access time, ties broken by earliest position in the directory
listing rather than by lowest CacheKey; with distinct access times this is
exactly the entry with the strictly smallest access time. -/
theorem claim_C4_amended_lru_eviction [DecidableEq K] (maxSize : Nat) (s : Store K R)
    (p : K × Entry R) (hlen : s.length = maxSize + 1)
    (hm : minByAtime s = some p) :
    evictLoop maxSize (fun _ => false) s = .ok (removeKey p.1 s) ∧
    (∀ q ∈ s, p.2.atime ≤ q.2.atime) ∧
    (List.Pairwise (fun a b : K × Entry R => a.2.atime ≠ b.2.atime) s →
      ∀ q ∈ s, q ≠ p → p.2.atime < q.2.atime) := by
  have hgt : s.length > maxSize := by omega
  have hlt : (removeKey p.1 s).length < s.length := removeKey_length_lt (minByAtime_mem hm)
  refine ⟨?_, minByAtime_le hm, ?_⟩
  · rw [evictLoop_cons_step hgt hm rfl, evictLoop_of_le _ _ _ (by omega)]
  · intro hdist q hq hne
    have hne2 : q.2.atime ≠ p.2.atime :=
      (hdist.forall fun a b h => Ne.symm h) hq (minByAtime_mem hm) hne
    exact lt_of_le_of_ne (minByAtime_le hm q hq) fun h => hne2 h.symm

/-- C4 amended witness: capacity 1, entries with distinct access times 7
and 2; the pass removes exactly the entry with access time 2 (key 20). -/
theorem claim_C4_amended_witness :
    evictLoop 1 (fun _ => false)
        [((10:Nat), (⟨some (0:Nat), 7⟩ : Entry Nat)), (20, ⟨some 0, 2⟩)] =
      .ok (removeKey 20 [((10:Nat), (⟨some (0:Nat), 7⟩ : Entry Nat)), (20, ⟨some 0, 2⟩)]) :=
  (claim_C4_amended_lru_eviction 1
    [((10:Nat), (⟨some (0:Nat), 7⟩ : Entry Nat)), (20, ⟨some 0, 2⟩)]
    (20, ⟨some 0, 2⟩) rfl (by decide)).1

/-- C5: two keyword-argument lists carrying the same name-to-value
association — a permutation with no duplicate names, as Python `dict`s
guarantee — fingerprint to the same cache key for any positional
arguments. -/
theorem claim_C5_fingerprint_kwarg_order_invariant (args : List Value)
    (kw1 kw2 : List (String × Value)) (hperm : kw1.Perm kw2)
    (hnd : kw1.Pairwise fun a b => a.1 ≠ b.1) :
    fingerprint args kw1 = fingerprint args kw2 := by
  unfold fingerprint
  rw [sortKwargs_perm_eq kw1 kw2 hperm hnd]

/-- C5 witness: swapping two keyword arguments leaves the fingerprint
unchanged. -/
theorem claim_C5_witness :
    fingerprint [Value.int 7] [(("b"), Value.int 1), (("a"), Value.int 2)] =
      fingerprint [Value.int 7] [(("a"), Value.int 2), (("b"), Value.int 1)] :=
  claim_C5_fingerprint_kwarg_order_invariant [Value.int 7] _ _
    (List.Perm.swap (("a"), Value.int 2) (("b"), Value.int 1) []) (by decide)

/-- C6: on the next wrapped call for a key whose stored bytes fail to
decode, the corrupted entry is removed, the call proceeds exactly as a
miss (the wrapped function is invoked once and its outcome — value or its
own failure — delivered unchanged, never a decode error), and afterwards no
entry with undecodable bytes remains under that key. -/
theorem claim_C6_corrupt_entry_self_heal [DecidableEq K] (maxSize now : Nat) (k : K)
    (opRes : Except E R) (s : Store K R) (e : Entry R)
    (hf : findEntry k s = some e) (hcorr : e.data = none) :
    (wrapper maxSize now (wAll K) opRes (some k) s).out = directResult opRes ∧
    (wrapper maxSize now (wAll K) opRes (some k) s).opCalls = 1 ∧
    ∀ e1, findEntry k (wrapper maxSize now (wAll K) opRes (some k) s).store = some e1 →
      e1.data ≠ none := by
  have hw : wrapper maxSize now (wAll K) opRes (some k) s =
      missPath maxSize now (wAll K) opRes k (removeKey k (touch k now s)) :=
    wrapper_corrupt maxSize now (wAll K) opRes k s e hf hcorr
  cases opRes with
  | error err =>
    rw [missPath_err] at hw
    rw [hw]
    refine ⟨rfl, rfl, ?_⟩
    intro e1 he1
    rw [findEntry_removeKey, if_pos rfl] at he1
    exact absurd he1 (by simp)
  | ok r =>
    obtain ⟨s3, h3⟩ := evictLoop_noFail_ok maxSize
      (writeEntry k r now (removeKey k (touch k now s))).length
      (writeEntry k r now (removeKey k (touch k now s))) (le_refl _)
    have hmp : missPath maxSize now (wAll K) (Except.ok r : Except E R) k
        (removeKey k (touch k now s)) = ⟨WrapOut.ok r, s3, 1⟩ := by
      show (match evictLoop maxSize (fun _ => false)
          (writeEntry k r now (removeKey k (touch k now s))) with
        | Except.error s4 => (⟨WrapOut.osError, s4, 1⟩ : WrapResult K E R)
        | Except.ok s4 => ⟨WrapOut.ok r, s4, 1⟩) = ⟨WrapOut.ok r, s3, 1⟩
      rw [h3]
    rw [hmp] at hw
    rw [hw]
    refine ⟨rfl, rfl, ?_⟩
    intro e1 he1
    rcases evictLoop_findEntry maxSize (fun _ => false) k
        (writeEntry k r now (removeKey k (touch k now s))).length
        (writeEntry k r now (removeKey k (touch k now s))) s3 (le_refl _) h3 with h4 | h4
    · rw [h4] at he1
      exact absurd he1 (by simp)
    · rw [h4, findEntry_writeEntry_self] at he1
      injection he1 with he1
      rw [← he1]
      simp

/-- C6 witness: a store whose single entry under key 0 is corrupt; the next
call returns the freshly computed 7 and invoked the function once. -/
theorem claim_C6_witness :
    (wrapper 4 9 (wAll Nat) (Except.ok 7 : Except Unit Nat) (some 0)
        [((0:Nat), (⟨none, 1⟩ : Entry Nat))]).out =
      directResult (Except.ok 7 : Except Unit Nat) ∧
    (wrapper 4 9 (wAll Nat) (Except.ok 7 : Except Unit Nat) (some 0)
        [((0:Nat), (⟨none, 1⟩ : Entry Nat))]).opCalls = 1 :=
  ⟨(claim_C6_corrupt_entry_self_heal 4 9 0 (Except.ok 7)
      [((0:Nat), ⟨none, 1⟩)] ⟨none, 1⟩ (by decide) rfl).1,
   (claim_C6_corrupt_entry_self_heal 4 9 0 (Except.ok 7)
      [((0:Nat), ⟨none, 1⟩)] ⟨none, 1⟩ (by decide) rfl).2.1⟩

/-- C7: when the wrapped function fails on a genuine miss, its failure is
delivered to the caller unchanged and the store is exactly the store the
call began with — no entry is created, nothing is cached. -/
theorem claim_C7_failure_propagates_store_unchanged [DecidableEq K] (maxSize now : Nat)
    (w : World K) (err : E) (k : K) (s : Store K R) (habs : findEntry k s = none) :
    wrapper maxSize now w (Except.error err : Except E R) (some k) s =
      ⟨WrapOut.opError err, s, 1⟩ := by
  rw [wrapper_miss _ _ _ _ _ _ habs, missPath_err]

/-- C7 witness: a failing operation on a miss leaves the one-entry store
untouched and surfaces the failure. -/
theorem claim_C7_witness :
    wrapper 4 2 (wAll Nat) (Except.error () : Except Unit Nat) (some 3)
        [((5:Nat), (⟨some (9:Nat), 0⟩ : Entry Nat))] =
      ⟨WrapOut.opError (), [((5:Nat), ⟨some 9, 0⟩)], 1⟩ :=
  claim_C7_failure_propagates_store_unchanged 4 2 (wAll Nat) () 3 _ (by decide)

/-- C8: when the arguments cannot be pickled (step 3 fails), the wrapper
calls the function directly and returns its outcome uncached: the store is
returned exactly as it was, the function is invoked once, and the failure
to encode is not surfaced as an error. -/
theorem claim_C8_encoding_failure_direct_call [DecidableEq K] (maxSize now : Nat)
    (w : World K) (opRes : Except E R) (s : Store K R) :
    wrapper maxSize now w opRes none s = ⟨directResult opRes, s, 1⟩ := rfl

/-- C9 (code bug): when the eviction pass selects the oldest entry `p` and
`os.remove` on it fails, the `OSError` escapes the wrapper (line 112 of the
source sits outside any `try`): the caller receives the exception rather
than the already-computed result `r`, and no retry with a next-oldest
candidate happens. -/
theorem claim_C9_eviction_remove_failure_crashes [DecidableEq K] (maxSize now : Nat)
    (rf : K → Bool) (r : R) (k : K) (s : Store K R) (p : K × Entry R)
    (habs : findEntry k s = none)
    (hgt : (writeEntry k r now s).length > maxSize)
    (hm : minByAtime (writeEntry k r now s) = some p)
    (hrf : rf p.1 = true) :
    wrapper maxSize now (⟨true, true, rf⟩ : World K) (Except.ok r : Except E R) (some k) s =
      ⟨WrapOut.osError, writeEntry k r now s, 1⟩ := by
  rw [wrapper_miss _ _ _ _ _ _ habs]
  show (match evictLoop maxSize rf (writeEntry k r now s) with
    | Except.error s2 => (⟨WrapOut.osError, s2, 1⟩ : WrapResult K E R)
    | Except.ok s2 => ⟨WrapOut.ok r, s2, 1⟩) = ⟨WrapOut.osError, writeEntry k r now s, 1⟩
  rw [evictLoop_error_step hgt hm hrf]

/-- C9 witness: capacity 1, one old entry under key 0 whose removal raises;
a fresh call computing 7 ends in an escaping `OSError` instead of
returning 7. -/
theorem claim_C9_witness :
    wrapper 1 5 (⟨true, true, fun k : Nat => decide (k = 0)⟩ : World Nat)
        (Except.ok 7 : Except Unit Nat) (some 1)
        [((0:Nat), (⟨some (3:Nat), 0⟩ : Entry Nat))] =
      ⟨WrapOut.osError, writeEntry 1 7 5 [((0:Nat), ⟨some 3, 0⟩)], 1⟩ :=
  claim_C9_eviction_remove_failure_crashes 1 5 _ 7 1 _ _ (by decide) (by decide) rfl rfl

/-- C10: the cache key is computed from the arguments alone — `fingerprint`
never sees the wrapped function — so a second function called with
arguments equal (up to keyword reordering) to ones already cached by a
first function maps to the same cache file and receives the first
function's value `vg` (its own fresh value would have been `vf`) with its
own function invoked zero times. -/
theorem claim_C10_key_independent_of_function (maxSize t1 t2 : Nat) (vg vf : R)
    (args : List Value) (kw1 kw2 : List (String × Value)) (s : Store CacheKey R)
    (hperm : kw1.Perm kw2) (hnd : kw1.Pairwise fun a b => a.1 ≠ b.1)
    (habs : findEntry (fingerprint args kw1) s = none)
    (hcap : s.length + 1 ≤ maxSize) :
    fingerprint args kw2 = fingerprint args kw1 ∧
    wrapper maxSize t1 (wAll CacheKey) (Except.ok vg : Except E R)
        (some (fingerprint args kw1)) s =
      ⟨WrapOut.ok vg, writeEntry (fingerprint args kw1) vg t1 s, 1⟩ ∧
    wrapper maxSize t2 (wAll CacheKey) (Except.ok vf : Except E R)
        (some (fingerprint args kw2)) (writeEntry (fingerprint args kw1) vg t1 s) =
      ⟨WrapOut.ok vg,
        touch (fingerprint args kw1) t2 (writeEntry (fingerprint args kw1) vg t1 s), 0⟩ := by
  have hkey : fingerprint args kw2 = fingerprint args kw1 := by
    unfold fingerprint
    rw [sortKwargs_perm_eq kw1 kw2 hperm hnd]
  have hlen : (writeEntry (fingerprint args kw1) vg t1 s).length ≤ maxSize := by
    rw [writeEntry_length_of_absent habs]
    omega
  refine ⟨hkey, ?_, ?_⟩
  · rw [wrapper_miss _ _ _ _ _ _ habs, missPath_wAll_ok _ _ _ _ _ hlen]
  · rw [hkey]
    exact wrapper_hit _ _ _ _ _ _ _ vg (findEntry_writeEntry_self _ vg t1 s) rfl

/-- C10 witness: a call with reordered keyword arguments maps onto the
entry cached by another function's call and returns that function's 7
(this function would have produced 8), invoking nothing. -/
theorem claim_C10_witness :
    fingerprint [] [(("a"), Value.int 2), (("b"), Value.int 1)] =
      fingerprint [] [(("b"), Value.int 1), (("a"), Value.int 2)] ∧
    wrapper 4 1 (wAll CacheKey) (Except.ok 7 : Except Unit Nat)
        (some (fingerprint [] [(("b"), Value.int 1), (("a"), Value.int 2)])) [] =
      ⟨WrapOut.ok 7,
        writeEntry (fingerprint [] [(("b"), Value.int 1), (("a"), Value.int 2)]) 7 1 [], 1⟩ ∧
    wrapper 4 2 (wAll CacheKey) (Except.ok 8 : Except Unit Nat)
        (some (fingerprint [] [(("a"), Value.int 2), (("b"), Value.int 1)]))
        (writeEntry (fingerprint [] [(("b"), Value.int 1), (("a"), Value.int 2)]) 7 1 []) =
      ⟨WrapOut.ok 7,
        touch (fingerprint [] [(("b"), Value.int 1), (("a"), Value.int 2)]) 2
          (writeEntry (fingerprint [] [(("b"), Value.int 1), (("a"), Value.int 2)]) 7 1 []), 0⟩ :=
  claim_C10_key_independent_of_function 4 1 2 7 8 [] _ _ []
    (List.Perm.swap (("a"), Value.int 2) (("b"), Value.int 1) []) (by decide) rfl (by decide)

end LruCacheToFile
